import Mathlib

/-!
Verification of the CogniGrade part-label tree engine and
region capture / image composition pipeline.

This file is a shallow embedding, in Lean 4, of the JavaScript source of
the CogniGrade frontend (files `frontend/announcements_1.js`,
`frontend/crop-edit.js` and the unnamed stage-machine script), together
with theorems checking the natural-language specification against it.

A dotted-decimal part label such as `"2.3.1"` is modelled as its list of
integer segments `[2, 3, 1]`.  This is faithful to the string operations
of the source because every label manipulated by the engine is a
canonical dotted-decimal string (segments are decimal numerals without
leading zeros), so `s.startsWith(t + '.')` coincides with "the segments
of `t` are a proper prefix of the segments of `s`", `s.split('.').length`
is the segment count, and `parseInt(s.split('.').pop(), 10)` is the last
segment.
-/

namespace CogniGrade

/-- A part label, as its list of dot-separated integer segments. -/
abbrev Label := List Nat

/-- Last segment of a label (`parseInt(label.split('.').pop(), 10)`). -/
def lastSeg (l : Label) : Nat := l.getLastD 0

/-- Parent of a label (`labelToRemove.substring(0, lastDot)`). -/
def parentOf (l : Label) : Label := l.dropLast

/-! Aliases for three standard library lemmas, under local names. -/

theorem isPrefixOf_true_iff {l₁ l₂ : List Nat} :
    l₁.isPrefixOf l₂ = true ↔ l₁ <+: l₂ :=
  List.isPrefixOf_iff_prefix

theorem dropLast_isPrefix_self (l : List Nat) : l.dropLast <+: l :=
  List.dropLast_prefix l

theorem two_prefixes_comparable {l₁ l₂ l₃ : List Nat}
    (h₁ : l₁ <+: l₃) (h₂ : l₂ <+: l₃) : l₁ <+: l₂ ∨ l₂ <+: l₁ :=
  List.prefix_or_prefix_of_prefix h₁ h₂

/-! ## `sortPartLabels` (announcements_1.js, lines 558-578) -/

/-- The comparator body of `sortPartLabels`: compare corresponding
segments numerically, a missing segment counting as `-1`; if all
compared segments agree the difference of the lengths is returned
(which is `0` here, since a present segment, being a natural number,
never equals the `-1` of a missing one, so unequal lengths are decided
inside the loop). -/
def cmpSeg : List Nat → List Nat → Int
  | [], [] => 0
  | [], b :: _ => -1 - (b : Int)
  | a :: _, [] => (a : Int) + 1
  | a :: as, b :: bs => if (a : Int) - b ≠ 0 then (a : Int) - b else cmpSeg as bs

/-- The non-strict order induced by the comparator: `a` may come before
`b` exactly when the comparator does not require the opposite order. -/
def labelLe (a b : Label) : Prop := cmpSeg a b ≤ 0

instance : DecidableRel labelLe := fun a b => inferInstanceAs (Decidable (cmpSeg a b ≤ 0))

/-- Function `sortPartLabels(labels)`: sorts the labels with `Array.prototype.sort`
under the segment comparator.  JavaScript's sort is a stable comparison
sort (the algorithm itself is implementation-defined), so it is embedded
here as a stable comparison sort: insertion sort ordered by the
comparator. -/
def sortPartLabels (labels : List Label) : List Label :=
  labels.insertionSort labelLe

/-! The order described by the specification: corresponding integer
segments are compared left to right, a missing segment is less than any
present one (so a strict prefix sorts before its extensions).  On lists
of segments this is exactly the lexicographic strict order
`List.Lex (· < ·)`. -/

theorem cmpSeg_nil_nil : cmpSeg [] [] = 0 := rfl

theorem cmpSeg_neg_iff_lex : ∀ a b : List Nat, cmpSeg a b < 0 ↔ List.Lex (· < ·) a b
  | [], [] => by simp [cmpSeg]
  | [], b :: bs => by
      simp only [cmpSeg]
      constructor
      · intro _; exact List.Lex.nil
      · intro _; omega
  | a :: as, [] => by
      simp only [cmpSeg]
      constructor
      · intro h; omega
      · intro h; cases h
  | a :: as, b :: bs => by
      simp only [cmpSeg]
      by_cases hab : (a : Int) - b ≠ 0
      · simp only [if_pos hab]
        have hne : a ≠ b := by intro h; subst h; omega
        constructor
        · intro h
          exact List.Lex.rel (by omega)
        · intro h
          cases h with
          | cons h' => exact absurd rfl hne
          | rel h' => omega
      · simp only [if_neg hab]
        have heq : a = b := by omega
        subst heq
        rw [cmpSeg_neg_iff_lex as bs]
        constructor
        · intro h; exact List.Lex.cons h
        · intro h
          cases h with
          | cons h' => exact h'
          | rel h' => omega

theorem cmpSeg_zero_iff_eq : ∀ a b : List Nat, cmpSeg a b = 0 ↔ a = b
  | [], [] => by simp [cmpSeg]
  | [], b :: bs => by simp only [cmpSeg]; constructor <;> intro h <;> [omega; cases h]
  | a :: as, [] => by simp only [cmpSeg]; constructor <;> intro h <;> [omega; cases h]
  | a :: as, b :: bs => by
      simp only [cmpSeg]
      by_cases hab : (a : Int) - b ≠ 0
      · simp only [if_pos hab]
        constructor
        · intro h; omega
        · intro h
          cases h
          omega
      · simp only [if_neg hab]
        have heq : a = b := by omega
        subst heq
        rw [cmpSeg_zero_iff_eq as bs]
        constructor
        · intro h; rw [h]
        · intro h; cases h; rfl

theorem cmpSeg_antisymm : ∀ a b : List Nat, cmpSeg b a = -cmpSeg a b
  | [], [] => by simp [cmpSeg]
  | [], b :: bs => by simp only [cmpSeg]; omega
  | a :: as, [] => by simp only [cmpSeg]; omega
  | a :: as, b :: bs => by
      simp only [cmpSeg]
      by_cases hab : (a : Int) - b ≠ 0
      · rw [if_pos hab, if_pos (by omega : (b : Int) - a ≠ 0)]
        omega
      · rw [if_neg hab, if_neg (by omega : ¬((b : Int) - a ≠ 0))]
        exact cmpSeg_antisymm as bs

theorem cmpSeg_le_total (a b : List Nat) : cmpSeg a b ≤ 0 ∨ cmpSeg b a ≤ 0 := by
  rw [cmpSeg_antisymm a b]
  omega

theorem cmpSeg_nil_le : ∀ c : List Nat, cmpSeg [] c ≤ 0
  | [] => by simp [cmpSeg]
  | c :: cs => by simp only [cmpSeg]; omega

theorem cmpSeg_le_trans : ∀ a b c : List Nat,
    cmpSeg a b ≤ 0 → cmpSeg b c ≤ 0 → cmpSeg a c ≤ 0
  | [], _, c, _, _ => cmpSeg_nil_le c
  | _ :: _, [], _, h1, _ => by simp only [cmpSeg] at h1; omega
  | _ :: _, _ :: _, [], _, h2 => by simp only [cmpSeg] at h2; omega
  | a :: as, b :: bs, c :: cs, h1, h2 => by
      simp only [cmpSeg] at h1 h2 ⊢
      by_cases hab : (a : Int) - b ≠ 0
      · rw [if_pos hab] at h1
        by_cases hbc : (b : Int) - c ≠ 0
        · rw [if_pos hbc] at h2
          rw [if_pos (by omega : (a : Int) - c ≠ 0)]
          omega
        · rw [if_pos (by omega : (a : Int) - c ≠ 0)]
          omega
      · rw [if_neg hab] at h1
        by_cases hbc : (b : Int) - c ≠ 0
        · rw [if_pos hbc] at h2
          rw [if_pos (by omega : (a : Int) - c ≠ 0)]
          omega
        · rw [if_neg hbc] at h2
          rw [if_neg (by omega : ¬((a : Int) - c ≠ 0))]
          exact cmpSeg_le_trans as bs cs h1 h2

/-- The order the specification describes for `sortPartLabels`:
corresponding integer segments are compared left to right numerically, a
missing segment comparing less than any present segment (equivalently: a
strict prefix, in particular a shorter label that ties on every common
segment, sorts first).  On segment lists this is the reflexive closure of
the lexicographic strict order. -/
def specLabelLe (a b : Label) : Prop := a = b ∨ List.Lex (· < ·) a b

theorem cmpSeg_le_iff_specLabelLe (a b : Label) :
    cmpSeg a b ≤ 0 ↔ specLabelLe a b := by
  constructor
  · intro h
    rcases lt_or_eq_of_le h with h' | h'
    · exact Or.inr ((cmpSeg_neg_iff_lex a b).mp h')
    · exact Or.inl ((cmpSeg_zero_iff_eq a b).mp h')
  · intro h
    rcases h with h | h
    · exact le_of_eq ((cmpSeg_zero_iff_eq a b).mpr h)
    · exact le_of_lt ((cmpSeg_neg_iff_lex a b).mpr h)

instance : IsTrans Label labelLe := ⟨fun a b c => cmpSeg_le_trans a b c⟩

instance : IsTotal Label labelLe := ⟨fun a b => cmpSeg_le_total a b⟩

/-- C4: `sortPartLabels` orders any list of dotted-decimal labels by
comparing corresponding integer segments left to right numerically, a
missing segment comparing less than any present segment, ties broken by
shorter label first; the output is a permutation of the input ordered by
that relation, and in particular
`sortPartLabels(["2.10","2.2","2"]) = ["2","2.2","2.10"]`. -/
theorem sortPartLabels_sorts (labels : List Label) :
    (sortPartLabels labels).Perm labels ∧
    (sortPartLabels labels).Pairwise specLabelLe ∧
    sortPartLabels [[2, 10], [2, 2], [2]] = [[2], [2, 2], [2, 10]] := by
  refine ⟨List.perm_insertionSort labelLe labels, ?_, by decide⟩
  have hs : (sortPartLabels labels).Pairwise labelLe :=
    List.sorted_insertionSort labelLe labels
  exact hs.imp (fun h => (cmpSeg_le_iff_specLabelLe _ _).mp h)

/-! ## The label tree operations
(announcements_1.js: `addSubpartToQuestion` lines 386-429, `addSubpart`
lines 432-481, `removePart` lines 485-543)

Each operation that can fail returns `Option (List Label)`: `none` embeds
the early-`return`-after-alert paths, on which the label set is not
mutated; `some labels'` is the updated label list that the function
re-renders. -/

/-- The direct children of `parent` among `labels`: the labels that
start with `parent + "."` and have exactly one more segment. -/
def directChildren (labels : List Label) (parent : Label) : List Label :=
  labels.filter (fun pl => parent.isPrefixOf pl && pl.length == parent.length + 1)

/-- Number of direct children of `parent` among `labels`. -/
def childCount (labels : List Label) (parent : Label) : Nat :=
  (directChildren labels parent).length

/-- Function `addSubpartToQuestion(questionId)` of announcements_1.js — the
operation the specification calls `addTopLevelPart(question)`.
`questionNumber` is the question's display number.  The function
collects `mainParts`, the labels starting with `"{questionNumber}."`
(note: *all* such labels, with no depth restriction), refuses when there
are at least 6 of them, and otherwise appends
`"{questionNumber}.{highest+1}"` where `highest` is the largest second
segment among `mainParts` (or appends `"{questionNumber}.1"` when
`mainParts` is empty), then re-sorts. -/
def addSubpartToQuestion (questionNumber : Nat) (partLabels : List Label) :
    Option (List Label) :=
  let mainParts := partLabels.filter
    (fun pl => List.isPrefixOf [questionNumber] pl && 2 ≤ pl.length)
  if 6 ≤ mainParts.length then none
  else
    let newLabel : Label :=
      if mainParts.length = 0 then [questionNumber, 1]
      else [questionNumber, (mainParts.map (fun l => l.getD 1 0)).foldl max 0 + 1]
    some (sortPartLabels (partLabels ++ [newLabel]))

/-- Function `addSubpart(questionId, parentLabel)` of announcements_1.js: refuses
when the parent's depth is already 6, or when the parent already has 6
direct children; otherwise appends `"{parentLabel}.{highestSubpart+1}"`
where `highestSubpart` is the largest final segment among the parent's
direct children (0 when there are none), then re-sorts. -/
def addSubpart (partLabels : List Label) (parentLabel : Label) :
    Option (List Label) :=
  if 6 ≤ parentLabel.length then none
  else if 6 ≤ childCount partLabels parentLabel then none
  else
    let highestSubpart :=
      (directChildren partLabels parentLabel).foldl (fun h pl => max h (lastSeg pl)) 0
    some (sortPartLabels (partLabels ++ [parentLabel ++ [highestSubpart + 1]]))

/-- The sibling comparator of `removePart`
(`siblings.sort((a, b) => aNum - bNum)`): order by final segment. -/
def sibLe (a b : Label) : Prop := lastSeg a ≤ lastSeg b

instance : DecidableRel sibLe :=
  fun a b => inferInstanceAs (Decidable (lastSeg a ≤ lastSeg b))

instance : IsTotal Label sibLe := ⟨fun a b => Nat.le_total _ _⟩

instance : IsTrans Label sibLe := ⟨fun _ _ _ => Nat.le_trans⟩

/-- The per-label body of the renumbering pass of `removePart`: a label
carrying the prefix `"{parent}.{m}"` is rewritten to carry the prefix
`"{parent}.{m-1}"` instead; any other label is left alone. -/
def rename1 (parent : Label) (m : Nat) (pl : Label) : Label :=
  if List.isPrefixOf (parent ++ [m]) pl then
    parent ++ [m - 1] ++ pl.drop (parent.length + 1)
  else pl

/-- Function `removePart(questionId, labelToRemove)` of announcements_1.js:
filters out the label and its whole subtree; then, when the label has a
parent (its string contains a dot), collects the remaining direct
children of that parent, sorts them ascending by final segment, and for
each sibling whose final segment exceeds the removed one rewrites every
label carrying the sibling's prefix to the prefix with that segment
lowered by one (`rename1`). -/
def removePart (partLabels : List Label) (labelToRemove : Label) : List Label :=
  let remaining := partLabels.filter (fun pl => !(List.isPrefixOf labelToRemove pl))
  if 2 ≤ labelToRemove.length then
    let parent := labelToRemove.dropLast
    let siblings := remaining.filter
      (fun pl => parent.isPrefixOf pl && pl.length == parent.length + 1)
    let sorted := siblings.insertionSort sibLe
    let removedNum := lastSeg labelToRemove
    sorted.foldl (fun acc sib =>
      if removedNum < lastSeg sib then acc.map (rename1 parent (lastSeg sib))
      else acc) remaining
  else remaining

/-- The number of top-level parts of question `questionNumber`: labels of
the form `"{questionNumber}.{k}"` (exactly two segments). -/
def topLevelCount (questionNumber : Nat) (partLabels : List Label) : Nat :=
  childCount partLabels [questionNumber]

/-- C2 (failing run): on the label set
`["2.1","2.1.1","2.1.2","2.1.3","2.1.4","2.1.5"]` of question 2 there is
exactly **one** top-level part, yet `addSubpartToQuestion` refuses to add
a new top-level part (it counts all six labels prefixed by `"2."` as
"main parts" because its filter does not restrict the depth), in
contradiction with the claim that the operation succeeds whenever fewer
than 6 top-level parts exist. -/
theorem addSubpartToQuestion_rejects_one_top_level_part :
    topLevelCount 2 [[2,1],[2,1,1],[2,1,2],[2,1,3],[2,1,4],[2,1,5]] = 1 ∧
    addSubpartToQuestion 2 [[2,1],[2,1,1],[2,1,2],[2,1,3],[2,1,4],[2,1,5]] = none := by
  constructor
  · decide
  · decide

/-! ### Helper lemmas about children counts -/

theorem mem_directChildren {labels : List Label} {parent pl : Label} :
    pl ∈ directChildren labels parent ↔
      pl ∈ labels ∧ parent <+: pl ∧ pl.length = parent.length + 1 := by
  simp [directChildren, List.mem_filter, and_assoc]

theorem childCount_eq_countP (labels : List Label) (parent : Label) :
    childCount labels parent =
      labels.countP (fun pl => parent.isPrefixOf pl && pl.length == parent.length + 1) := by
  simp [childCount, directChildren, List.countP_eq_length_filter]

theorem childCount_le_length (labels : List Label) (parent : Label) :
    childCount labels parent ≤ labels.length := by
  rw [childCount_eq_countP]
  exact List.countP_le_length _

theorem childCount_append (l₁ l₂ : List Label) (p : Label) :
    childCount (l₁ ++ l₂) p = childCount l₁ p + childCount l₂ p := by
  simp [childCount, directChildren, List.filter_append]

theorem childCount_perm {l₁ l₂ : List Label} (h : l₁.Perm l₂) (p : Label) :
    childCount l₁ p = childCount l₂ p := by
  rw [childCount_eq_countP, childCount_eq_countP]
  exact h.countP_eq _

theorem childCount_singleton (parent : Label) (k : Nat) (p : Label) :
    childCount [parent ++ [k]] p = if p = parent then 1 else 0 := by
  by_cases hp : p = parent
  · subst hp
    have hpre : List.isPrefixOf p (p ++ [k]) = true := by
      rw [isPrefixOf_true_iff]
      exact List.prefix_append _ _
    simp [childCount, directChildren, List.filter, hpre]
  · rw [if_neg hp]
    have hnil : directChildren [parent ++ [k]] p = [] := by
      rw [List.eq_nil_iff_forall_not_mem]
      intro pl hpl
      rw [mem_directChildren] at hpl
      obtain ⟨hmem, hpre, hlen⟩ := hpl
      simp only [List.mem_singleton] at hmem
      subst hmem
      have hlen' : p.length = parent.length := by
        rw [List.length_append, List.length_singleton] at hlen
        omega
      have hp' : p = parent := by
        have h1 := List.prefix_iff_eq_take.mp hpre
        rw [h1, hlen']
        exact List.take_left' rfl
      exact hp hp'
    simp [childCount, hnil]

/-- The next direct-child suffix as the specification words it:
"(max existing direct-child suffix)+1, or 1" when there are none. -/
def specNextChild (labels : List Label) (parent : Label) : Nat :=
  (((directChildren labels parent).map lastSeg).max?.getD 0) + 1

theorem foldl_max_eq_max? (s : List Nat) : s.foldl max 0 = s.max?.getD 0 := by
  cases s with
  | nil => rfl
  | cons a as =>
    simp [List.max?, List.foldl_cons, Nat.zero_max]

theorem childCount_le_mainParts (labels : List Label) (qn : Nat) :
    childCount labels [qn] ≤
      (labels.filter (fun pl => List.isPrefixOf [qn] pl && 2 ≤ pl.length)).length := by
  rw [childCount_eq_countP, ← List.countP_eq_length_filter]
  apply List.countP_mono_left
  intro pl _ hc
  simp only [Bool.and_eq_true, beq_iff_eq, decide_eq_true_eq,
    List.length_singleton] at hc ⊢
  exact ⟨hc.1, by omega⟩

/-- C3: on a label set satisfying the depth-≤-6 and branching-≤-6
invariants, `addSubpart` and `addTopLevelPart` (`addSubpartToQuestion`)
never produce a label of depth above 6 and never give any parent more
than 6 direct children; each performs no mutation (`none`) when the
relevant limit is already met.  Moreover `addSubpart` fails exactly when
the parent's depth is ≥ 6 or the parent already has 6 direct children,
and otherwise adds exactly `"{parentLabel}.{k}"` with
k = (max existing direct-child suffix)+1, or 1 when there are none. -/
theorem addSubpart_safe (labels : List Label) (parent : Label) (qn : Nat)
    (hdepth : ∀ pl ∈ labels, pl.length ≤ 6)
    (hbranch : ∀ p : Label, childCount labels p ≤ 6) :
    (addSubpart labels parent = none ↔
        6 ≤ parent.length ∨ 6 ≤ childCount labels parent) ∧
    (∀ res, addSubpart labels parent = some res →
        res.Perm (labels ++ [parent ++ [specNextChild labels parent]]) ∧
        (∀ pl ∈ res, pl.length ≤ 6) ∧ (∀ p : Label, childCount res p ≤ 6)) ∧
    (∀ res, addSubpartToQuestion qn labels = some res →
        (∀ pl ∈ res, pl.length ≤ 6) ∧ (∀ p : Label, childCount res p ≤ 6)) ∧
    (6 ≤ topLevelCount qn labels → addSubpartToQuestion qn labels = none) := by
  refine ⟨?_, ?_, ?_, ?_⟩
  · by_cases h1 : 6 ≤ parent.length
    · simp [addSubpart, h1]
    · by_cases h2 : 6 ≤ childCount labels parent
      · simp [addSubpart, h1, h2]
      · simp [addSubpart, h1, h2]
  · intro res hres
    by_cases h1 : 6 ≤ parent.length
    · simp [addSubpart, h1] at hres
    by_cases h2 : 6 ≤ childCount labels parent
    · simp [addSubpart, h1, h2] at hres
    simp only [addSubpart, if_neg h1, if_neg h2, Option.some_inj] at hres
    have hfold : (directChildren labels parent).foldl (fun h pl => max h (lastSeg pl)) 0 + 1 =
        specNextChild labels parent := by
      rw [specNextChild, ← List.foldl_map, foldl_max_eq_max?]
    have hperm : res.Perm (labels ++ [parent ++ [specNextChild labels parent]]) := by
      rw [← hres, ← hfold]
      exact List.perm_insertionSort _ _
    refine ⟨hperm, ?_, ?_⟩
    · intro pl hpl
      have hpl' := hperm.mem_iff.mp hpl
      rcases List.mem_append.mp hpl' with h | h
      · exact hdepth pl h
      · simp only [List.mem_singleton] at h
        subst h
        simp only [List.length_append, List.length_singleton]
        omega
    · intro p
      rw [childCount_perm hperm, childCount_append, childCount_singleton]
      by_cases hp : p = parent
      · rw [if_pos hp, hp]
        omega
      · rw [if_neg hp]
        have := hbranch p
        omega
  · intro res hres
    by_cases h6 : 6 ≤ (labels.filter
        (fun pl => List.isPrefixOf [qn] pl && 2 ≤ pl.length)).length
    · simp [addSubpartToQuestion, h6] at hres
    simp only [addSubpartToQuestion, if_neg h6, Option.some_inj] at hres
    have hshape : ∃ k, res.Perm (labels ++ [([qn] : Label) ++ [k]]) := by
      by_cases h0 : (labels.filter
          (fun pl => List.isPrefixOf [qn] pl && 2 ≤ pl.length)).length = 0
      · refine ⟨1, ?_⟩
        rw [← hres]
        simp only [if_pos h0]
        exact List.perm_insertionSort _ _
      · refine ⟨((labels.filter (fun pl => List.isPrefixOf [qn] pl && 2 ≤ pl.length)).map
          (fun l => l.getD 1 0)).foldl max 0 + 1, ?_⟩
        rw [← hres]
        simp only [if_neg h0]
        exact List.perm_insertionSort _ _
    obtain ⟨k, hperm⟩ := hshape
    constructor
    · intro pl hpl
      have hpl' := hperm.mem_iff.mp hpl
      rcases List.mem_append.mp hpl' with h | h
      · exact hdepth pl h
      · simp only [List.mem_singleton] at h
        subst h
        simp
    · intro p
      rw [childCount_perm hperm, childCount_append, childCount_singleton]
      by_cases hp : p = [qn]
      · rw [if_pos hp, hp]
        have hle := childCount_le_mainParts labels qn
        omega
      · rw [if_neg hp]
        have := hbranch p
        omega
  · intro h6
    have hle := childCount_le_mainParts labels qn
    have : 6 ≤ (labels.filter
        (fun pl => List.isPrefixOf [qn] pl && 2 ≤ pl.length)).length := by
      have := h6
      rw [topLevelCount] at this
      omega
    simp [addSubpartToQuestion, this]

/-- Closed instance of `addSubpart_safe`: on the one-label set
`["2.1"]` with parent `"2.1"`, the failure characterisation holds. -/
theorem addSubpart_safe_witness :
    addSubpart [[2, 1]] [2, 1] = none ↔
      6 ≤ ([2, 1] : Label).length ∨ 6 ≤ childCount [[2, 1]] [2, 1] :=
  (addSubpart_safe [[2, 1]] [2, 1] 2 (by decide)
    (fun p => le_trans (childCount_le_length [[2, 1]] p) (by decide))).1

/-! ### C1: `removePart` — spec-side description and validity -/

/-- The renumbering map exactly as the specification words it: after the
removed subtree is gone, a label that lies in the subtree of a *sibling*
of the removed label (a present direct child of the removed label's
parent) whose final segment `s` is strictly greater than the removed
final segment is renumbered down by exactly 1 at that segment, the new
prefix propagating to all of the sibling's descendants; every other
label is untouched. -/
def renameSpec (labels : List Label) (l : Label) (pl : Label) : Label :=
  let parent := l.dropLast
  let r := lastSeg l
  if parent.length < pl.length ∧ parent <+: pl then
    let s := pl.getD parent.length 0
    if r < s ∧ (parent ++ [s]) ∈ labels then
      parent ++ [s - 1] ++ pl.drop (parent.length + 1)
    else pl
  else pl

/-- A valid label set in the sense of the specification's §3 invariants:
a duplicate-free set of part labels (each label is
`"{questionNumber}.{...}"`, so has at least 2 segments), each segment at
least 1, depth at most 6, siblings contiguous from 1 (each present final
segment ≥ 2 has its predecessor sibling present — equivalently the
direct-child suffixes of every parent are exactly `1..k`), and at most 6
direct children per parent. -/
def ValidLabels (labels : List Label) : Prop :=
  labels.Nodup ∧
  (∀ pl ∈ labels, 2 ≤ pl.length ∧ pl.length ≤ 6) ∧
  (∀ pl ∈ labels, ∀ s ∈ pl, 1 ≤ s) ∧
  (∀ pl ∈ labels, 2 ≤ lastSeg pl → pl.dropLast ++ [lastSeg pl - 1] ∈ labels) ∧
  (∀ pl ∈ labels, childCount labels pl.dropLast ≤ 6)

instance (labels : List Label) : Decidable (ValidLabels labels) := by
  unfold ValidLabels
  infer_instance

/-! Basic decomposition lemmas about labels. -/

theorem lastSeg_concat (p : Label) (n : Nat) : lastSeg (p ++ [n]) = n := by
  simp [lastSeg]

theorem dropLast_concat' (p : Label) (n : Nat) : (p ++ [n]).dropLast = p := by
  simp

theorem self_eq_dropLast_concat {pl : Label} (h : pl ≠ []) :
    pl = pl.dropLast ++ [lastSeg pl] := by
  conv_lhs => rw [← List.dropLast_append_getLast h]
  rw [lastSeg, List.getLastD_eq_getLast?, List.getLast?_eq_getLast pl h]
  rfl

/-- A direct child of `parent` is `parent` with one extra segment. -/
theorem directChild_decomp {parent pl : Label}
    (hpre : parent <+: pl) (hlen : pl.length = parent.length + 1) :
    pl = parent ++ [lastSeg pl] := by
  have hne : pl ≠ [] := by
    intro h
    rw [h] at hlen
    simp at hlen
  have h1 : pl.dropLast = parent := by
    obtain ⟨t, ht⟩ := hpre
    have htlen : t.length = 1 := by
      have := congrArg List.length ht
      simp at this
      omega
    obtain ⟨x, hx⟩ := List.length_eq_one.mp htlen
    subst hx
    rw [← ht, dropLast_concat']
  conv_lhs => rw [self_eq_dropLast_concat hne, h1]

/-- Splitting a proper extension of `parent` after `parent`. -/
theorem proper_ext_decomp {parent pl : Label}
    (hpre : parent <+: pl) (hlen : parent.length < pl.length) :
    ∃ s rest, pl = parent ++ s :: rest ∧ pl.getD parent.length 0 = s := by
  obtain ⟨t, ht⟩ := hpre
  have htne : t ≠ [] := by
    intro h
    subst h
    rw [List.append_nil] at ht
    subst ht
    exact lt_irrefl _ hlen
  obtain ⟨s, rest, hrest⟩ := List.exists_cons_of_ne_nil htne
  subst hrest
  refine ⟨s, rest, ht.symm, ?_⟩
  rw [← ht]
  rw [List.getD_eq_getElem?_getD, List.getElem?_append_right (Nat.le_refl _)]
  simp

theorem getD_parent_append (parent : Label) (s : Nat) (rest : List Nat) :
    (parent ++ s :: rest).getD parent.length 0 = s := by
  rw [List.getD_eq_getElem?_getD, List.getElem?_append_right (Nat.le_refl _)]
  simp

/-- Prefix test against a one-longer candidate prefix. -/
theorem concat_prefix_cons_iff (parent : Label) (m s : Nat) (rest : List Nat) :
    (parent ++ [m]) <+: (parent ++ s :: rest) ↔ m = s := by
  rw [List.prefix_append_right_inj]
  constructor
  · intro h
    rcases h with ⟨t, ht⟩
    simp at ht
    exact ht.1
  · intro h
    subst h
    exact ⟨rest, rfl⟩

theorem drop_parent_cons (parent : Label) (s : Nat) (rest : List Nat) :
    (parent ++ s :: rest).drop (parent.length + 1) = rest := by
  have : parent ++ s :: rest = (parent ++ [s]) ++ rest := by simp
  rw [this, List.drop_left']
  simp

/-! ### The renumbering fold of `removePart`, reduced to a pointwise map -/

/-- The renumbering passes of `removePart`, restricted to a single label:
apply `rename1` for each suffix in `ms` exceeding the removed suffix
`r`, in the order of `ms`. -/
def applyRenames (parent : Label) (r : Nat) (ms : List Nat) (pl : Label) : Label :=
  ms.foldl (fun q m => if r < m then rename1 parent m q else q) pl

theorem rename1_of_not_ext {parent pl : Label} {m : Nat}
    (h : ¬(parent.length < pl.length ∧ parent <+: pl)) :
    rename1 parent m pl = pl := by
  rw [rename1, if_neg]
  intro hpre
  rw [isPrefixOf_true_iff] at hpre
  have h1 : parent <+: pl := (List.prefix_append parent [m]).trans hpre
  have h2 : parent.length + 1 ≤ pl.length := by
    have := hpre.length_le
    simpa using this
  exact h ⟨by omega, h1⟩

theorem rename1_concat (parent : Label) (m s : Nat) (rest : List Nat) :
    rename1 parent m (parent ++ s :: rest) =
      if m = s then parent ++ (s - 1) :: rest else parent ++ s :: rest := by
  rw [rename1]
  by_cases hms : m = s
  · rw [if_pos hms, if_pos, drop_parent_cons]
    · simp [hms]
    · rw [isPrefixOf_true_iff, concat_prefix_cons_iff]
      exact hms
  · rw [if_neg hms, if_neg]
    rw [isPrefixOf_true_iff, concat_prefix_cons_iff]
    exact hms

theorem applyRenames_of_not_ext {parent pl : Label} {r : Nat}
    (h : ¬(parent.length < pl.length ∧ parent <+: pl)) :
    ∀ ms : List Nat, applyRenames parent r ms pl = pl := by
  intro ms
  induction ms with
  | nil => rfl
  | cons m ms ih =>
    rw [applyRenames, List.foldl_cons]
    by_cases hrm : r < m
    · rw [if_pos hrm, rename1_of_not_ext h]
      exact ih
    · rw [if_neg hrm]
      exact ih

theorem applyRenames_concat (parent : Label) (r : Nat) :
    ∀ ms : List Nat, ms.Pairwise (· < ·) → ∀ (s : Nat) (rest : List Nat),
    applyRenames parent r ms (parent ++ s :: rest) =
      if r < s ∧ s ∈ ms then parent ++ (s - 1) :: rest else parent ++ s :: rest := by
  intro ms
  induction ms with
  | nil => intro _ s rest; simp [applyRenames]
  | cons m ms ih =>
    intro hpair s rest
    have hm : ∀ x ∈ ms, m < x := fun x hx => (List.pairwise_cons.mp hpair).1 x hx
    have htail : ms.Pairwise (· < ·) := (List.pairwise_cons.mp hpair).2
    have hstep : applyRenames parent r (m :: ms) (parent ++ s :: rest) =
        applyRenames parent r ms
          (if r < m then rename1 parent m (parent ++ s :: rest)
           else parent ++ s :: rest) := rfl
    rw [hstep]
    by_cases hrm : r < m
    · rw [if_pos hrm, rename1_concat]
      by_cases hms' : m = s
      · subst hms'
        rw [if_pos rfl, ih htail, if_neg]
        · rw [if_pos ⟨hrm, List.mem_cons_self m ms⟩]
        · rintro ⟨_, hmem⟩
          have := hm _ hmem
          omega
      · rw [if_neg hms', ih htail]
        by_cases hin : r < s ∧ s ∈ ms
        · rw [if_pos hin, if_pos ⟨hin.1, List.mem_cons_of_mem m hin.2⟩]
        · rw [if_neg hin, if_neg]
          rintro ⟨hrs, hmem⟩
          rcases List.mem_cons.mp hmem with h | h
          · exact hms' h.symm
          · exact hin ⟨hrs, h⟩
    · rw [if_neg hrm, ih htail]
      by_cases hin : r < s ∧ s ∈ ms
      · rw [if_pos hin, if_pos ⟨hin.1, List.mem_cons_of_mem m hin.2⟩]
      · rw [if_neg hin, if_neg]
        rintro ⟨hrs, hmem⟩
        rcases List.mem_cons.mp hmem with h | h
        · subst h
          exact hrm hrs
        · exact hin ⟨hrs, h⟩

theorem foldl_renames_eq_map (parent : Label) (r : Nat) :
    ∀ (ms : List Nat) (acc : List Label),
    ms.foldl (fun acc m => if r < m then acc.map (rename1 parent m) else acc) acc
      = acc.map (applyRenames parent r ms) := by
  intro ms
  induction ms with
  | nil =>
    intro acc
    exact (List.map_id' acc).symm
  | cons m ms ih =>
    intro acc
    rw [List.foldl_cons]
    by_cases hrm : r < m
    · rw [if_pos hrm, ih, List.map_map]
      apply List.map_congr_left
      intro pl _
      have : applyRenames parent r (m :: ms) pl =
          applyRenames parent r ms (rename1 parent m pl) := by
        rw [applyRenames, List.foldl_cons, if_pos hrm]
        rfl
      rw [this]
      rfl
    · rw [if_neg hrm, ih]
      apply List.map_congr_left
      intro pl _
      have h2 : applyRenames parent r (m :: ms) pl = applyRenames parent r ms pl := by
        show applyRenames parent r ms (if r < m then rename1 parent m pl else pl) =
          applyRenames parent r ms pl
        rw [if_neg hrm]
      rw [h2]

theorem foldl_sib_eq_suffix (parent : Label) (r : Nat) :
    ∀ (sibs : List Label) (acc : List Label),
    sibs.foldl (fun acc sib =>
      if r < lastSeg sib then acc.map (rename1 parent (lastSeg sib)) else acc) acc
      = (sibs.map lastSeg).foldl (fun acc m =>
          if r < m then acc.map (rename1 parent m) else acc) acc := by
  intro sibs
  induction sibs with
  | nil => intro acc; rfl
  | cons sib sibs ih =>
    intro acc
    rw [List.map_cons, List.foldl_cons, List.foldl_cons]
    exact ih _

/-- Function `removePart`, with its renumbering fold rewritten as a pointwise map
of `applyRenames` over the sorted sibling suffixes. -/
theorem removePart_unfold (labels : List Label) (l : Label) (h2 : 2 ≤ l.length) :
    removePart labels l =
      (labels.filter (fun pl => !(List.isPrefixOf l pl))).map
        (applyRenames l.dropLast (lastSeg l)
          ((((labels.filter (fun pl => !(List.isPrefixOf l pl))).filter
              (fun pl => (l.dropLast).isPrefixOf pl &&
                pl.length == (l.dropLast).length + 1)).insertionSort sibLe).map
            lastSeg)) := by
  simp only [removePart]
  rw [if_pos h2, foldl_sib_eq_suffix, foldl_renames_eq_map]

theorem mem_sortedSuffixes (labels : List Label) (l : Label) (m : Nat) :
    m ∈ ((((labels.filter (fun pl => !(List.isPrefixOf l pl))).filter
        (fun pl => (l.dropLast).isPrefixOf pl &&
          pl.length == (l.dropLast).length + 1)).insertionSort sibLe).map lastSeg) ↔
      (l.dropLast ++ [m]) ∈ labels.filter (fun pl => !(List.isPrefixOf l pl)) := by
  constructor
  · intro hm
    obtain ⟨sib, hsib, hlast⟩ := List.mem_map.mp hm
    have hsib' := (List.perm_insertionSort sibLe _).mem_iff.mp hsib
    have hsib'' := List.mem_filter.mp hsib'
    obtain ⟨hrem, hcond⟩ := hsib''
    simp only [Bool.and_eq_true, isPrefixOf_true_iff, beq_iff_eq] at hcond
    have hdec : sib = l.dropLast ++ [lastSeg sib] :=
      directChild_decomp hcond.1 hcond.2
    rw [← hlast, ← hdec]
    exact hrem
  · intro hm
    apply List.mem_map.mpr
    refine ⟨l.dropLast ++ [m], ?_, lastSeg_concat _ _⟩
    apply (List.perm_insertionSort sibLe _).mem_iff.mpr
    apply List.mem_filter.mpr
    refine ⟨hm, ?_⟩
    simp [isPrefixOf_true_iff, List.prefix_append]

theorem pairwise_lt_sortedSuffixes (labels : List Label) (l : Label)
    (hnodup : labels.Nodup) :
    ((((labels.filter (fun pl => !(List.isPrefixOf l pl))).filter
        (fun pl => (l.dropLast).isPrefixOf pl &&
          pl.length == (l.dropLast).length + 1)).insertionSort sibLe).map
      lastSeg).Pairwise (· < ·) := by
  have hsibs_nodup : ((labels.filter (fun pl => !(List.isPrefixOf l pl))).filter
      (fun pl => (l.dropLast).isPrefixOf pl &&
        pl.length == (l.dropLast).length + 1)).Nodup :=
    (hnodup.filter _).filter _
  have hsorted_nodup := (List.perm_insertionSort sibLe _).nodup_iff.mpr hsibs_nodup
  have hsortedP : (((labels.filter (fun pl => !(List.isPrefixOf l pl))).filter
      (fun pl => (l.dropLast).isPrefixOf pl &&
        pl.length == (l.dropLast).length + 1)).insertionSort sibLe).Pairwise sibLe :=
    List.sorted_insertionSort sibLe _
  have hinj : ∀ x ∈ ((labels.filter (fun pl => !(List.isPrefixOf l pl))).filter
      (fun pl => (l.dropLast).isPrefixOf pl &&
        pl.length == (l.dropLast).length + 1)).insertionSort sibLe,
      ∀ y ∈ ((labels.filter (fun pl => !(List.isPrefixOf l pl))).filter
      (fun pl => (l.dropLast).isPrefixOf pl &&
        pl.length == (l.dropLast).length + 1)).insertionSort sibLe,
      lastSeg x = lastSeg y → x = y := by
    intro x hx y hy hxy
    have hx' := List.mem_filter.mp ((List.perm_insertionSort sibLe _).mem_iff.mp hx)
    have hy' := List.mem_filter.mp ((List.perm_insertionSort sibLe _).mem_iff.mp hy)
    simp only [Bool.and_eq_true, isPrefixOf_true_iff, beq_iff_eq] at hx' hy'
    have hxd : x = l.dropLast ++ [lastSeg x] := directChild_decomp hx'.2.1 hx'.2.2
    have hyd : y = l.dropLast ++ [lastSeg y] := directChild_decomp hy'.2.1 hy'.2.2
    rw [hxd, hyd, hxy]
  have hms_nodup := List.Nodup.map_on hinj hsorted_nodup
  have hle_ms : ((((labels.filter (fun pl => !(List.isPrefixOf l pl))).filter
      (fun pl => (l.dropLast).isPrefixOf pl &&
        pl.length == (l.dropLast).length + 1)).insertionSort sibLe).map
      lastSeg).Pairwise (· ≤ ·) := by
    rw [List.pairwise_map]
    exact hsortedP
  have hne_ms : ((((labels.filter (fun pl => !(List.isPrefixOf l pl))).filter
      (fun pl => (l.dropLast).isPrefixOf pl &&
        pl.length == (l.dropLast).length + 1)).insertionSort sibLe).map
      lastSeg).Pairwise (· ≠ ·) := hms_nodup
  exact (hle_ms.and hne_ms).imp (fun h => lt_of_le_of_ne h.1 h.2)

/-- Whether the removed label is a prefix of a direct child of its
parent depends only on the final segments. -/
theorem removed_prefix_concat_iff (l : Label) (hlne : l ≠ []) (s : Nat)
    (rest : List Nat) :
    l <+: (l.dropLast ++ s :: rest) ↔ lastSeg l = s := by
  have h := concat_prefix_cons_iff l.dropLast (lastSeg l) s rest
  rw [← self_eq_dropLast_concat hlne] at h
  exact h

/-- C1, characterisation half: on a valid label set, `removePart l`
equals the filter that deletes `l` and its subtree followed by the
pointwise renumbering map described by the specification. -/
theorem removePart_eq_map (labels : List Label) (l : Label)
    (hv : ValidLabels labels) (hl : l ∈ labels) :
    removePart labels l =
      (labels.filter (fun pl => !(List.isPrefixOf l pl))).map (renameSpec labels l) := by
  have hl2 : 2 ≤ l.length := (hv.2.1 l hl).1
  have hnodup : labels.Nodup := hv.1
  have hlne : l ≠ [] := by
    intro h
    rw [h] at hl2
    simp at hl2
  rw [removePart_unfold labels l hl2]
  apply List.map_congr_left
  intro pl hpl
  have hplmem : pl ∈ labels ∧ ¬ l <+: pl := by
    obtain ⟨h1, h2⟩ := List.mem_filter.mp hpl
    simp only [Bool.not_eq_true'] at h2
    exact ⟨h1, fun hpre => by simp [isPrefixOf_true_iff.mpr hpre] at h2⟩
  by_cases hext : (l.dropLast).length < pl.length ∧ l.dropLast <+: pl
  · obtain ⟨s, rest, hdecomp, hgetD⟩ := proper_ext_decomp hext.2 hext.1
    rw [hdecomp]
    rw [applyRenames_concat _ _ _ (pairwise_lt_sortedSuffixes labels l hnodup) s rest]
    have hext2 : (l.dropLast).length < (l.dropLast ++ s :: rest).length ∧
        l.dropLast <+: (l.dropLast ++ s :: rest) := by
      constructor
      · simp
      · exact List.prefix_append _ _
    simp only [renameSpec]
    rw [if_pos hext2, getD_parent_append]
    by_cases hc : lastSeg l < s
    · have hsne : ¬ l <+: (l.dropLast ++ [s]) := by
        rw [removed_prefix_concat_iff l hlne s []]
        omega
      have hbridge : s ∈ ((((labels.filter (fun pl => !(List.isPrefixOf l pl))).filter
          (fun pl => (l.dropLast).isPrefixOf pl &&
            pl.length == (l.dropLast).length + 1)).insertionSort sibLe).map lastSeg) ↔
          (l.dropLast ++ [s]) ∈ labels := by
        rw [mem_sortedSuffixes]
        simp only [List.mem_filter, isPrefixOf_true_iff]
        constructor
        · intro h
          exact h.1
        · intro h
          refine ⟨h, ?_⟩
          rw [Bool.not_eq_true']
          exact Bool.eq_false_iff.mpr
            (fun hx => hsne (isPrefixOf_true_iff.mp hx))
      by_cases hmem : (l.dropLast ++ [s]) ∈ labels
      · rw [if_pos ⟨hc, hbridge.mpr hmem⟩, if_pos ⟨hc, hmem⟩, drop_parent_cons]
        simp
      · rw [if_neg, if_neg]
        · rintro ⟨_, h⟩
          exact hmem h
        · rintro ⟨_, h⟩
          exact hmem (hbridge.mp h)
    · rw [if_neg, if_neg]
      · rintro ⟨h, _⟩
        exact hc h
      · rintro ⟨h, _⟩
        exact hc h
  · rw [applyRenames_of_not_ext hext _]
    simp only [renameSpec]
    rw [if_neg hext]

/-! ### Sibling contiguity as "suffixes are exactly `1..k`" -/

theorem le_foldr_max (s : List Nat) : ∀ n ∈ s, n ≤ s.foldr max 0 := by
  induction s with
  | nil => intro n hn; cases hn
  | cons a t ih =>
    intro n hn
    rcases List.mem_cons.mp hn with h | h
    · subst h
      exact Nat.le_max_left _ _
    · exact le_trans (ih n h) (Nat.le_max_right _ _)

theorem foldr_max_mem (s : List Nat) : s.foldr max 0 ∈ s ∨ s.foldr max 0 = 0 := by
  induction s with
  | nil => right; rfl
  | cons a t ih =>
    rw [List.foldr_cons]
    by_cases h : t.foldr max 0 ≤ a
    · left
      rw [Nat.max_eq_left h]
      exact List.mem_cons_self _ _
    · rw [Nat.max_eq_right (by omega)]
      rcases ih with h' | h'
      · exact Or.inl (List.mem_cons_of_mem _ h')
      · exact Or.inr h'

theorem lastSeg_mem {pl : Label} (h : pl ≠ []) : lastSeg pl ∈ pl := by
  have h2 : lastSeg pl ∈ pl.dropLast ++ [lastSeg pl] := by simp
  rwa [← self_eq_dropLast_concat h] at h2

/-- Any label set whose segments are positive and whose sibling suffixes
are downward closed (every present final segment ≥ 2 has its predecessor
present) has, under every parent, direct-child suffixes forming exactly
`1..k` for some `k ≥ 0`. -/
theorem exists_initial_seg (L : List Label)
    (hpos : ∀ pl ∈ L, ∀ s ∈ pl, 1 ≤ s)
    (hdc : ∀ pl ∈ L, 2 ≤ lastSeg pl → pl.dropLast ++ [lastSeg pl - 1] ∈ L)
    (p : Label) :
    ∃ k, ∀ n : Nat, ((p ++ [n]) ∈ L ↔ 1 ≤ n ∧ n ≤ k) := by
  have hmem : ∀ n, (p ++ [n]) ∈ L ↔ n ∈ (directChildren L p).map lastSeg := by
    intro n
    constructor
    · intro h
      apply List.mem_map.mpr
      refine ⟨p ++ [n], ?_, lastSeg_concat _ _⟩
      exact mem_directChildren.mpr ⟨h, List.prefix_append _ _, by simp⟩
    · intro h
      obtain ⟨c, hc, hlast⟩ := List.mem_map.mp h
      obtain ⟨hcL, hcpre, hclen⟩ := mem_directChildren.mp hc
      have hdec := directChild_decomp hcpre hclen
      rw [← hlast, ← hdec]
      exact hcL
  refine ⟨((directChildren L p).map lastSeg).foldr max 0, ?_⟩
  intro n
  rw [hmem]
  constructor
  · intro hn
    refine ⟨?_, le_foldr_max _ n hn⟩
    have hL : (p ++ [n]) ∈ L := (hmem n).mpr hn
    exact hpos _ hL n (by simp)
  · rintro ⟨h1, h2⟩
    by_cases hcs : (directChildren L p).map lastSeg = []
    · rw [hcs] at h2
      simp at h2
      omega
    · have hkmem : ((directChildren L p).map lastSeg).foldr max 0 ∈
          (directChildren L p).map lastSeg := by
        rcases foldr_max_mem ((directChildren L p).map lastSeg) with h | h
        · exact h
        · exfalso
          obtain ⟨x, hx⟩ := List.exists_mem_of_ne_nil _ hcs
          have hx1 : 1 ≤ x := by
            have hL : (p ++ [x]) ∈ L := (hmem x).mpr hx
            exact hpos _ hL x (by simp)
          have := le_foldr_max _ x hx
          omega
      have hstep : ∀ m, 2 ≤ m → (p ++ [m]) ∈ L → (p ++ [m - 1]) ∈ L := by
        intro m hm hmem'
        have h' := hdc _ hmem' (by rw [lastSeg_concat]; omega)
        rw [lastSeg_concat, dropLast_concat'] at h'
        exact h'
      have hdown : ∀ d n', n' + d = ((directChildren L p).map lastSeg).foldr max 0 →
          1 ≤ n' → (p ++ [n']) ∈ L := by
        intro d
        induction d with
        | zero =>
          intro n' h0 _
          rw [Nat.add_zero] at h0
          subst h0
          exact (hmem _).mpr hkmem
        | succ d ih =>
          intro n' h0 h1'
          have hup : (p ++ [n' + 1]) ∈ L := ih (n' + 1) (by omega) (by omega)
          have h' := hstep (n' + 1) (by omega) hup
          simpa using h'
      exact (hmem n).mp
        (hdown (((directChildren L p).map lastSeg).foldr max 0 - n) n (by omega) h1)

/-! ### Contiguity is preserved by `removePart` -/

theorem mem_remaining_iff (labels : List Label) (l pl : Label) :
    pl ∈ labels.filter (fun pl => !(List.isPrefixOf l pl)) ↔
      pl ∈ labels ∧ ¬ l <+: pl := by
  rw [List.mem_filter]
  constructor
  · rintro ⟨h1, h2⟩
    rw [Bool.not_eq_true'] at h2
    exact ⟨h1, fun hpre => by simp [isPrefixOf_true_iff.mpr hpre] at h2⟩
  · rintro ⟨h1, h2⟩
    refine ⟨h1, ?_⟩
    rw [Bool.not_eq_true']
    exact Bool.eq_false_iff.mpr (fun hx => h2 (isPrefixOf_true_iff.mp hx))

theorem renameSpec_of_not_ext (labels : List Label) (l pl : Label)
    (h : ¬((l.dropLast).length < pl.length ∧ l.dropLast <+: pl)) :
    renameSpec labels l pl = pl := by
  simp only [renameSpec]
  rw [if_neg h]

theorem renameSpec_concat (labels : List Label) (l : Label) (s : Nat)
    (rest : List Nat) :
    renameSpec labels l (l.dropLast ++ s :: rest) =
      if lastSeg l < s ∧ (l.dropLast ++ [s]) ∈ labels then
        l.dropLast ++ (s - 1) :: rest
      else l.dropLast ++ s :: rest := by
  simp only [renameSpec]
  rw [if_pos ⟨by simp, List.prefix_append _ _⟩, getD_parent_append]
  by_cases h : lastSeg l < s ∧ (l.dropLast ++ [s]) ∈ labels
  · rw [if_pos h, if_pos h, drop_parent_cons]
    simp
  · rw [if_neg h, if_neg h]

theorem mem_removePart_of (labels : List Label) (l : Label)
    (hv : ValidLabels labels) (hl : l ∈ labels) {pl : Label}
    (hpl : pl ∈ labels) (hnpre : ¬ l <+: pl) :
    renameSpec labels l pl ∈ removePart labels l := by
  rw [removePart_eq_map labels l hv hl]
  exact List.mem_map_of_mem _ ((mem_remaining_iff labels l pl).mpr ⟨hpl, hnpre⟩)

theorem lastSeg_append {l₂ : List Nat} (l₁ : List Nat) (h : l₂ ≠ []) :
    lastSeg (l₁ ++ l₂) = lastSeg l₂ := by
  rw [lastSeg, lastSeg, List.getLastD_eq_getLast?, List.getLastD_eq_getLast?,
    List.getLast?_append_of_ne_nil _ h]

theorem prefix_of_prefix_dropLast_concat {parent pl : Label} {x : Nat}
    (hlen : parent.length < pl.length) (h : parent <+: pl.dropLast ++ [x]) :
    parent <+: pl := by
  have h1 : pl.dropLast <+: pl.dropLast ++ [x] := List.prefix_append _ _
  rcases two_prefixes_comparable h h1 with h2 | h2
  · exact h2.trans (dropLast_isPrefix_self pl)
  · have hlen2 : pl.dropLast.length = pl.length - 1 := by
      simp [List.length_dropLast]
    have heq : pl.dropLast = parent := by
      apply h2.eq_of_length
      have := h2.length_le
      omega
    rw [← heq]
    exact dropLast_isPrefix_self pl

/-- All segments of labels after `removePart` stay ≥ 1. -/
theorem removePart_segsPos (labels : List Label) (l : Label)
    (hv : ValidLabels labels) (hl : l ∈ labels) :
    ∀ q ∈ removePart labels l, ∀ s ∈ q, 1 ≤ s := by
  intro q hq s hs
  rw [removePart_eq_map labels l hv hl] at hq
  obtain ⟨pl, hpl', hqeq⟩ := List.mem_map.mp hq
  have hplmem : pl ∈ labels := ((mem_remaining_iff labels l pl).mp hpl').1
  subst hqeq
  by_cases hext : (l.dropLast).length < pl.length ∧ l.dropLast <+: pl
  · obtain ⟨t, rest, hdec, _⟩ := proper_ext_decomp hext.2 hext.1
    rw [hdec, renameSpec_concat] at hs
    by_cases hc : lastSeg l < t ∧ (l.dropLast ++ [t]) ∈ labels
    · rw [if_pos hc] at hs
      rcases List.mem_append.mp hs with h | h
      · exact hv.2.2.1 l hl s (List.mem_of_mem_dropLast h)
      · rcases List.mem_cons.mp h with h' | h'
        · subst h'
          have hlne : l ≠ [] := by
            intro hx
            have := (hv.2.1 l hl).1
            rw [hx] at this
            simp at this
          have hr1 : 1 ≤ lastSeg l := hv.2.2.1 l hl _ (lastSeg_mem hlne)
          omega
        · have hmem : s ∈ pl := by
            rw [hdec]
            exact List.mem_append_right _ (List.mem_cons_of_mem _ h')
          exact hv.2.2.1 pl hplmem s hmem
    · rw [if_neg hc, ← hdec] at hs
      exact hv.2.2.1 pl hplmem s hs
  · rw [renameSpec_of_not_ext _ _ _ hext] at hs
    exact hv.2.2.1 pl hplmem s hs

/-- The downward-closure of sibling suffixes survives `removePart`:
whenever a label of the result has final segment ≥ 2, its predecessor
sibling is also in the result. -/
theorem removePart_contigDC (labels : List Label) (l : Label)
    (hv : ValidLabels labels) (hl : l ∈ labels) :
    ∀ q ∈ removePart labels l, 2 ≤ lastSeg q →
      q.dropLast ++ [lastSeg q - 1] ∈ removePart labels l := by
  have hpos := hv.2.2.1
  have hdc := hv.2.2.2.1
  have hl2 : 2 ≤ l.length := (hv.2.1 l hl).1
  have hlne : l ≠ [] := by
    intro h
    rw [h] at hl2
    simp at hl2
  have hr1 : 1 ≤ lastSeg l := hpos l hl _ (lastSeg_mem hlne)
  have hllen : l.length = (l.dropLast).length + 1 := by
    rw [List.length_dropLast]
    omega
  intro q hq ht2
  rw [removePart_eq_map labels l hv hl] at hq
  obtain ⟨pl, hpl', hqeq⟩ := List.mem_map.mp hq
  obtain ⟨hplmem, hplnpre⟩ := (mem_remaining_iff labels l pl).mp hpl'
  by_cases hext : (l.dropLast).length < pl.length ∧ l.dropLast <+: pl
  · -- `pl` lies strictly below the removed label's parent
    obtain ⟨s, rest, hdec, _⟩ := proper_ext_decomp hext.2 hext.1
    have hsr : lastSeg l ≠ s := by
      intro h
      exact hplnpre (hdec ▸ (removed_prefix_concat_iff l hlne s rest).mpr h)
    rw [hdec, renameSpec_concat] at hqeq
    by_cases hc : lastSeg l < s ∧ (l.dropLast ++ [s]) ∈ labels
    · -- renumbered branch: q = parent ++ (s-1) :: rest
      rw [if_pos hc] at hqeq
      subst hqeq
      by_cases hrest : rest = []
      · -- q = parent ++ [s-1], a direct child of the parent
        subst hrest
        rw [lastSeg_concat] at ht2
        rw [dropLast_concat', lastSeg_concat]
        by_cases hr : lastSeg l = s - 1
        · -- the predecessor slot is the removed suffix: use the removed
          -- label's own predecessor sibling
          have hwit : l.dropLast ++ [lastSeg l - 1] ∈ labels := hdc l hl (by omega)
          have hnpre : ¬ l <+: (l.dropLast ++ [lastSeg l - 1]) := by
            rw [removed_prefix_concat_iff l hlne _ []]
            omega
          have heval : renameSpec labels l (l.dropLast ++ [lastSeg l - 1]) =
              l.dropLast ++ [lastSeg l - 1] := by
            rw [show (l.dropLast ++ [lastSeg l - 1] : Label) =
                l.dropLast ++ (lastSeg l - 1) :: [] from rfl]
            rw [renameSpec_concat, if_neg]
            rintro ⟨hlt, _⟩
            omega
          have := mem_removePart_of labels l hv hl hwit hnpre
          rw [heval] at this
          have hx : lastSeg l - 1 = s - 1 - 1 := by omega
          rwa [hx] at this
        · -- the predecessor slot is a still-present sibling
          have hlt : lastSeg l < s - 1 := by omega
          have hwit : l.dropLast ++ [s - 1] ∈ labels := by
            have h' := hdc (l.dropLast ++ [s]) hc.2 (by rw [lastSeg_concat]; omega)
            rwa [lastSeg_concat, dropLast_concat'] at h'
          have hnpre : ¬ l <+: (l.dropLast ++ [s - 1]) := by
            rw [removed_prefix_concat_iff l hlne _ []]
            omega
          have heval : renameSpec labels l (l.dropLast ++ [s - 1]) =
              l.dropLast ++ [s - 1 - 1] := by
            rw [show (l.dropLast ++ [s - 1] : Label) =
                l.dropLast ++ (s - 1) :: [] from rfl]
            rw [renameSpec_concat, if_pos ⟨hlt, hwit⟩]
          have := mem_removePart_of labels l hv hl hwit hnpre
          rwa [heval] at this
      · -- q = parent ++ (s-1) :: rest with rest ≠ []: work inside the subtree
        have hq_split : l.dropLast ++ (s - 1) :: rest =
            (l.dropLast ++ [s - 1]) ++ rest := by simp
        have htq : lastSeg (l.dropLast ++ (s - 1) :: rest) = lastSeg rest := by
          rw [hq_split, lastSeg_append _ hrest]
        rw [htq] at ht2 ⊢
        have hpl_split : l.dropLast ++ s :: rest = (l.dropLast ++ [s]) ++ rest := by
          simp
        have htpl : lastSeg pl = lastSeg rest := by
          rw [hdec, hpl_split, lastSeg_append _ hrest]
        have hwit : pl.dropLast ++ [lastSeg pl - 1] ∈ labels :=
          hdc pl hplmem (by omega)
        have hpl_drop : pl.dropLast = l.dropLast ++ s :: rest.dropLast := by
          rw [hdec, List.dropLast_append_cons, List.dropLast_cons_of_ne_nil hrest]
        have hwit_shape : pl.dropLast ++ [lastSeg pl - 1] =
            l.dropLast ++ s :: (rest.dropLast ++ [lastSeg rest - 1]) := by
          rw [hpl_drop, htpl]
          simp
        have hnpre : ¬ l <+: (pl.dropLast ++ [lastSeg pl - 1]) := by
          rw [hwit_shape, removed_prefix_concat_iff l hlne]
          exact hsr
        have heval : renameSpec labels l (pl.dropLast ++ [lastSeg pl - 1]) =
            l.dropLast ++ (s - 1) :: (rest.dropLast ++ [lastSeg rest - 1]) := by
          rw [hwit_shape, renameSpec_concat, if_pos hc]
        have hmem := mem_removePart_of labels l hv hl hwit hnpre
        rw [heval] at hmem
        have hgoal_shape : (l.dropLast ++ (s - 1) :: rest).dropLast ++
            [lastSeg rest - 1] =
            l.dropLast ++ (s - 1) :: (rest.dropLast ++ [lastSeg rest - 1]) := by
          rw [List.dropLast_append_cons, List.dropLast_cons_of_ne_nil hrest]
          simp
        rwa [hgoal_shape]
    · -- untouched branch: q = pl = parent ++ s :: rest
      rw [if_neg hc] at hqeq
      subst hqeq
      by_cases hrest : rest = []
      · -- q is itself a direct child with suffix s < removed suffix
        subst hrest
        have hsib : (l.dropLast ++ [s]) ∈ labels := hdec ▸ hplmem
        have hslt : s < lastSeg l := by
          rcases Nat.lt_trichotomy s (lastSeg l) with h | h | h
          · exact h
          · exact absurd h.symm hsr
          · exact absurd ⟨h, hsib⟩ hc
        rw [lastSeg_concat] at ht2
        rw [dropLast_concat', lastSeg_concat]
        have hwit : l.dropLast ++ [s - 1] ∈ labels := by
          have h' := hdc (l.dropLast ++ [s]) hsib (by rw [lastSeg_concat]; omega)
          rwa [lastSeg_concat, dropLast_concat'] at h'
        have hnpre : ¬ l <+: (l.dropLast ++ [s - 1]) := by
          rw [removed_prefix_concat_iff l hlne _ []]
          omega
        have heval : renameSpec labels l (l.dropLast ++ [s - 1]) =
            l.dropLast ++ [s - 1] := by
          rw [show (l.dropLast ++ [s - 1] : Label) =
              l.dropLast ++ (s - 1) :: [] from rfl]
          rw [renameSpec_concat, if_neg]
          rintro ⟨hlt, _⟩
          omega
        have := mem_removePart_of labels l hv hl hwit hnpre
        rwa [heval] at this
      · -- q = pl deep in an untouched subtree
        have hpl_split : l.dropLast ++ s :: rest = (l.dropLast ++ [s]) ++ rest := by
          simp
        have htq : lastSeg (l.dropLast ++ s :: rest) = lastSeg rest := by
          rw [hpl_split, lastSeg_append _ hrest]
        rw [htq] at ht2 ⊢
        have htpl : lastSeg pl = lastSeg rest := by
          rw [hdec, hpl_split, lastSeg_append _ hrest]
        have hwit : pl.dropLast ++ [lastSeg pl - 1] ∈ labels :=
          hdc pl hplmem (by omega)
        have hpl_drop : pl.dropLast = l.dropLast ++ s :: rest.dropLast := by
          rw [hdec, List.dropLast_append_cons, List.dropLast_cons_of_ne_nil hrest]
        have hwit_shape : pl.dropLast ++ [lastSeg pl - 1] =
            l.dropLast ++ s :: (rest.dropLast ++ [lastSeg rest - 1]) := by
          rw [hpl_drop, htpl]
          simp
        have hnpre : ¬ l <+: (pl.dropLast ++ [lastSeg pl - 1]) := by
          rw [hwit_shape, removed_prefix_concat_iff l hlne]
          exact hsr
        have heval : renameSpec labels l (pl.dropLast ++ [lastSeg pl - 1]) =
            l.dropLast ++ s :: (rest.dropLast ++ [lastSeg rest - 1]) := by
          rw [hwit_shape, renameSpec_concat, if_neg hc]
        have hmem := mem_removePart_of labels l hv hl hwit hnpre
        rw [heval] at hmem
        have hgoal_shape : (l.dropLast ++ s :: rest).dropLast ++
            [lastSeg rest - 1] =
            l.dropLast ++ s :: (rest.dropLast ++ [lastSeg rest - 1]) := by
          rw [List.dropLast_append_cons, List.dropLast_cons_of_ne_nil hrest]
          simp
        rwa [hgoal_shape]
  · -- `pl` is outside the parent's subtree: nothing is renamed around it
    rw [renameSpec_of_not_ext _ _ _ hext] at hqeq
    subst hqeq
    have hplne : pl ≠ [] := by
      intro h
      rw [h] at ht2
      simp [lastSeg] at ht2
    have hpllen : pl.length = pl.dropLast.length + 1 := by
      rw [List.length_dropLast]
      have : 0 < pl.length := List.length_pos.mpr hplne
      omega
    have hwit : pl.dropLast ++ [lastSeg pl - 1] ∈ labels := hdc pl hplmem ht2
    have hwitlen : (pl.dropLast ++ [lastSeg pl - 1]).length = pl.length := by
      rw [List.length_append, List.length_singleton]
      omega
    have hkey : ∀ x : Nat, (l.dropLast).length < pl.length →
        l.dropLast <+: pl.dropLast ++ [x] → False := by
      intro x hlt hx
      exact hext ⟨hlt, prefix_of_prefix_dropLast_concat hlt hx⟩
    have hnpre : ¬ l <+: (pl.dropLast ++ [lastSeg pl - 1]) := by
      intro hx
      have hlen3 := hx.length_le
      rw [hwitlen] at hlen3
      exact hkey _ (by omega) ((dropLast_isPrefix_self l).trans hx)
    have heval : renameSpec labels l (pl.dropLast ++ [lastSeg pl - 1]) =
        pl.dropLast ++ [lastSeg pl - 1] := by
      apply renameSpec_of_not_ext
      rintro ⟨h1, hx⟩
      rw [hwitlen] at h1
      exact hkey _ h1 hx
    have hmem := mem_removePart_of labels l hv hl hwit hnpre
    rwa [heval] at hmem

/-- C1: on every valid label set and for every label `l` in it,
`removePart` (i) deletes exactly `l` and the labels prefixed by
`l + "."`, and renumbers each sibling of `l` whose final segment exceeds
the removed one down by exactly 1 at that segment, propagating the new
prefix to the sibling's descendants (`renameSpec`, worded from the
specification); (ii) afterwards, for every parent, direct-child suffixes
form exactly `1..k` with no gaps, for some `k ≥ 0`; and (iii) in
particular deleting `"2.2"` from `{"2.1","2.2","2.3","2.3.1"}` yields
`{"2.1","2.2","2.2.1"}`. -/
theorem removePart_correct (labels : List Label) (l : Label)
    (hv : ValidLabels labels) (hl : l ∈ labels) :
    removePart labels l =
      (labels.filter (fun pl => !(List.isPrefixOf l pl))).map (renameSpec labels l) ∧
    (∀ p : Label, ∃ k, ∀ n : Nat,
        ((p ++ [n]) ∈ removePart labels l ↔ 1 ≤ n ∧ n ≤ k)) ∧
    removePart [[2, 1], [2, 2], [2, 3], [2, 3, 1]] [2, 2] =
      [[2, 1], [2, 2], [2, 2, 1]] := by
  refine ⟨removePart_eq_map labels l hv hl, ?_, by decide⟩
  intro p
  exact exists_initial_seg (removePart labels l)
    (removePart_segsPos labels l hv hl)
    (removePart_contigDC labels l hv hl) p

/-- Closed instance of `removePart_correct` at the specification's own
example set. -/
theorem removePart_correct_witness :
    removePart [[2, 1], [2, 2], [2, 3], [2, 3, 1]] [2, 2] =
      [[2, 1], [2, 2], [2, 2, 1]] :=
  (removePart_correct [[2, 1], [2, 2], [2, 3], [2, 3, 1]] [2, 2]
    (by decide) (by decide)).2.2

/-! ## The Coordinate/Composition Engine (crop-edit.js)

A raster image is modelled by its pixel dimensions (`naturalWidth`,
`naturalHeight` — integers, as for an `HTMLImageElement`/canvas) together
with its visual *content*, represented symbolically as the top-to-bottom
list of atomic pieces (caption strips and captured source pictures) that
were stacked into it.  Vertically concatenating canvases concatenates
these content lists. -/

/-- An atomic piece of visual content: a rendered caption strip, or one
captured source picture identified by an id. -/
inductive Atom where
  | caption (text : String)
  | pic (id : Nat)
deriving DecidableEq, Repr

/-- A raster image: integer pixel dimensions plus symbolic content. -/
structure Image where
  naturalWidth : Nat
  naturalHeight : Nat
  content : List Atom
deriving DecidableEq, Repr

/-- Function `concatenateImages(images)` (crop-edit.js lines 4-21): the output
canvas has width `max` of the input widths (first `forEach`), height the
sum of the input heights, and the drawing loop stacks the contents top
to bottom. -/
def concatenateImages (images : List Image) : Image :=
  { naturalWidth := images.foldl (fun m img => max m img.naturalWidth) 0,
    naturalHeight := images.foldl (fun h img => h + img.naturalHeight) 0,
    content := images.foldl (fun c img => c ++ img.content) [] }

/-- The drawing loop of `concatenateImages`: each image is drawn at
`x = (maxWidth - naturalWidth)/2` (JavaScript real division) and at the
running vertical offset `currentY`, which then advances by the image's
height.  `drawPositionsFrom maxW y0` is that loop started at offset
`y0`. -/
def drawPositionsFrom (maxWidth : Nat) (y0 : ℚ) : List Image → List (ℚ × ℚ)
  | [] => []
  | img :: rest =>
      (((maxWidth : ℚ) - (img.naturalWidth : ℚ)) / 2, y0) ::
        drawPositionsFrom maxWidth (y0 + (img.naturalHeight : ℚ)) rest

/-- The draw positions of `concatenateImages`' second `forEach`
(`currentY` starts at 0, `maxWidth` from the first loop). -/
def drawPositions (images : List Image) : List (ℚ × ℚ) :=
  drawPositionsFrom (images.foldl (fun m img => max m img.naturalWidth) 0) 0 images

/-! ### C5 helper lemmas -/

theorem foldl_max_acc (s : List Nat) : ∀ acc : Nat,
    s.foldl max acc = max acc (s.foldr max 0) := by
  induction s with
  | nil => intro acc; simp
  | cons a t ih =>
    intro acc
    rw [List.foldl_cons, List.foldr_cons, ih, Nat.max_assoc]

theorem width_foldl_eq (images : List Image) :
    images.foldl (fun m img => max m img.naturalWidth) 0 =
      (images.map (fun img => img.naturalWidth)).foldr max 0 := by
  rw [← List.foldl_map, foldl_max_acc]
  simp

theorem height_foldl_eq (images : List Image) : ∀ acc : Nat,
    images.foldl (fun h img => h + img.naturalHeight) acc =
      acc + (images.map (fun img => img.naturalHeight)).sum := by
  induction images with
  | nil => intro acc; simp
  | cons img rest ih =>
    intro acc
    rw [List.foldl_cons, ih, List.map_cons, List.sum_cons]
    omega

theorem drawPositionsFrom_getD (maxW : Nat) :
    ∀ (images : List Image) (y0 : ℚ) (i : Nat), i < images.length →
    (drawPositionsFrom maxW y0 images).getD i (0, 0) =
      (((maxW : ℚ) - ((images.getD i ⟨0, 0, []⟩).naturalWidth : ℚ)) / 2,
        y0 + (((images.take i).map (fun img => img.naturalHeight)).sum : ℚ)) := by
  intro images
  induction images with
  | nil =>
    intro y0 i hi
    simp at hi
  | cons img rest ih =>
    intro y0 i hi
    cases i with
    | zero => simp [drawPositionsFrom]
    | succ i =>
      have hi' : i < rest.length := by
        rw [List.length_cons] at hi
        omega
      rw [drawPositionsFrom]
      have h1 : ((img :: rest).getD (i + 1) ⟨0, 0, []⟩) = rest.getD i ⟨0, 0, []⟩ := by
        simp [List.getD_cons_succ]
      rw [h1]
      have h2 : (drawPositionsFrom maxW (y0 + (img.naturalHeight : ℚ)) rest).getD i
            (0, 0) =
          (((maxW : ℚ) - ((rest.getD i ⟨0, 0, []⟩).naturalWidth : ℚ)) / 2,
            (y0 + (img.naturalHeight : ℚ)) +
              (((rest.take i).map (fun img => img.naturalHeight)).sum : ℚ)) :=
        ih (y0 + (img.naturalHeight : ℚ)) i hi'
      rw [List.getD_cons_succ, h2]
      have h3 : ((img :: rest).take (i + 1)).map (fun img => (img.naturalHeight : ℚ)) =
          (img.naturalHeight : ℚ) ::
            (rest.take i).map (fun img => (img.naturalHeight : ℚ)) := by
        simp
      rw [h3, List.sum_cons, add_assoc]

theorem length_drawPositionsFrom (maxW : Nat) :
    ∀ (images : List Image) (y0 : ℚ),
    (drawPositionsFrom maxW y0 images).length = images.length := by
  intro images
  induction images with
  | nil => intro y0; rfl
  | cons img rest ih =>
    intro y0
    rw [drawPositionsFrom, List.length_cons, List.length_cons, ih]

/-- C5: for every non-empty image sequence, `concatenateImages` yields an
image whose width is the maximum input width (it is one of the input
widths and bounds them all), whose height is the sum of the input
heights, and whose drawing loop places the i-th input, in input order,
horizontally centred at `x = (maxWidth - wᵢ)/2` and at vertical offset
`h₁+⋯+hᵢ₋₁`. -/
theorem concatenateImages_spec (images : List Image) (hne : images ≠ []) :
    ((concatenateImages images).naturalWidth ∈
        images.map (fun img => img.naturalWidth) ∧
      ∀ img ∈ images, img.naturalWidth ≤ (concatenateImages images).naturalWidth) ∧
    (concatenateImages images).naturalHeight =
      (images.map (fun img => img.naturalHeight)).sum ∧
    (drawPositions images).length = images.length ∧
    (∀ i, i < images.length →
      (drawPositions images).getD i (0, 0) =
        ((((concatenateImages images).naturalWidth : ℚ) -
            ((images.getD i ⟨0, 0, []⟩).naturalWidth : ℚ)) / 2,
          (((images.take i).map (fun img => img.naturalHeight)).sum : ℚ))) := by
  refine ⟨⟨?_, ?_⟩, ?_, ?_, ?_⟩
  · show images.foldl (fun m img => max m img.naturalWidth) 0 ∈ _
    rw [width_foldl_eq]
    rcases foldr_max_mem ((images.map (fun img => img.naturalWidth))) with h | h
    · exact h
    · rw [h]
      rcases images with _ | ⟨img, rest⟩
      · exact absurd rfl hne
      · -- all widths bounded by max = 0, so the head width is 0 = max
        have h0 := le_foldr_max (((img :: rest).map (fun i => i.naturalWidth)))
          img.naturalWidth (by simp)
        rw [h] at h0
        have : img.naturalWidth = 0 := by omega
        simp [← this]
  · intro img hmem
    show img.naturalWidth ≤ images.foldl (fun m i => max m i.naturalWidth) 0
    rw [width_foldl_eq]
    exact le_foldr_max _ _ (List.mem_map_of_mem _ hmem)
  · show images.foldl (fun h img => h + img.naturalHeight) 0 = _
    rw [height_foldl_eq]
    omega
  · exact length_drawPositionsFrom _ images 0
  · intro i hi
    rw [drawPositions, drawPositionsFrom_getD _ images 0 i hi]
    rw [show (concatenateImages images).naturalWidth =
        images.foldl (fun m img => max m img.naturalWidth) 0 from rfl]
    rw [zero_add]

/-- Closed instance of `concatenateImages_spec` on two concrete images. -/
theorem concatenateImages_spec_witness :
    (concatenateImages [⟨100, 30, [Atom.pic 1]⟩, ⟨60, 50, [Atom.pic 2]⟩]).naturalHeight
      = 80 ∧
    (drawPositions [⟨100, 30, [Atom.pic 1]⟩, ⟨60, 50, [Atom.pic 2]⟩]).getD 1 (0, 0)
      = (20, 30) := by
  have h := concatenateImages_spec
    [⟨100, 30, [Atom.pic 1]⟩, ⟨60, 50, [Atom.pic 2]⟩] (by decide)
  refine ⟨?_, ?_⟩
  · rw [h.2.1]
    decide
  · rw [h.2.2.2 1 (by decide)]
    rw [show (concatenateImages [⟨100, 30, [Atom.pic 1]⟩,
        ⟨60, 50, [Atom.pic 2]⟩]).naturalWidth = 100 from by decide]
    norm_num

/-! ## The document-stage state machine
(crop-edit.js line 1 `stages`, unnamed stage script `getDocStage` /
`postExamStage`) -/

/-- Function `stages` (crop-edit.js line 1): the four document roles indexed by
the value of `getDocStage`. -/
def stages : List String :=
  ["question_paper", "marking_scheme", "solution_script", "answer_script"]

/-- Function `getDocStage(current_stage)`: the stage-to-document-role index.
Note the first branch is `current_stage <= 2`, so *every* integer ≤ 2 —
including negative ones — yields index 0. -/
def getDocStage (current_stage : Int) : Int :=
  if current_stage ≤ 2 then 0
  else if current_stage = 3 then 1
  else if current_stage = 4 then 2
  else if 5 ≤ current_stage ∧ current_stage ≤ 8 then 3
  else -1

/-- C6 (counterexample): the claim maps every integer outside 0–8 to the
distinguished invalid value, never to a role; but the code maps the
negative stage `-1` to index 0, i.e. to the role `question_paper`. -/
theorem getDocStage_neg_is_question_paper :
    getDocStage (-1) = 0 ∧ stages.getD 0 "" = "question_paper" ∧ (0 : Int) ≠ -1 := by
  refine ⟨by decide, rfl, by decide⟩

/-- C6 (amended): the stage-to-role function is pure and maps every
integer ≤ 2 (negative stages included) to `question_paper`, 3 to
`marking_scheme`, 4 to `solution_script`, 5–8 to `answer_script`, and
every integer above 8 to the distinguished invalid index `-1`. -/
theorem getDocStage_characterisation (s : Int) :
    getDocStage s =
      (if s ≤ 2 then 0 else if s = 3 then 1 else if s = 4 then 2
        else if s ≤ 8 then 3 else -1) ∧
    stages.getD 0 "" = "question_paper" ∧
    stages.getD 1 "" = "marking_scheme" ∧
    stages.getD 2 "" = "solution_script" ∧
    stages.getD 3 "" = "answer_script" := by
  refine ⟨?_, rfl, rfl, rfl, rfl⟩
  rw [getDocStage]
  split_ifs <;> omega

/-! ## Final submission: the consolidated extract call and the stage
advance (crop-edit.js `handleSubmit` lines 896-919, unnamed script
`postExamStage` lines 36-55) -/

/-- Outcome of one network call: the fetch promise rejects
(`netError`), or it resolves with an HTTP response carrying a success
flag (`response.ok`) and a body that does or does not parse as JSON. -/
inductive FetchOutcome where
  | netError
  | response (ok : Bool) (jsonOk : Bool)
deriving DecidableEq, Repr

/-- Externally visible effects of the post-submission tail of
`handleSubmit`. -/
structure SubmitFinalizeResult where
  extractCalled : Bool
  stageWriteRequested : Option Int
  gradeRequested : Bool
  alertText : String
deriving DecidableEq, Repr

/-- The tail of `handleSubmit` after all per-question submissions: only
when `document_type == 'answer_script'` is the consolidated
`process-text-images` call issued.  The code `await`s the fetch and then
`await procRes.json()`; it never consults `procRes.ok`, so the `catch`
(alert + no stage change) is reached only on a rejected fetch or a
non-JSON body — after which `postExamStage(7)` issues the stage write
and the grading request. -/
def handleSubmitFinalize (documentType : String) (extractOutcome : FetchOutcome) :
    SubmitFinalizeResult :=
  if documentType == "answer_script" then
    match extractOutcome with
    | .netError =>
        { extractCalled := true, stageWriteRequested := none,
          gradeRequested := false,
          alertText :=
            "Processing/Extraction of text from individual question images failed." }
    | .response _ jsonOk =>
        if jsonOk then
          { extractCalled := true, stageWriteRequested := some 7,
            gradeRequested := true,
            alertText := "Responses submitted and processed successfully!" }
        else
          { extractCalled := true, stageWriteRequested := none,
            gradeRequested := false,
            alertText :=
              "Processing/Extraction of text from individual question images failed." }
  else
    { extractCalled := false, stageWriteRequested := none,
      gradeRequested := false,
      alertText := "Responses submitted successfully!" }

/-- Function `postExamStage(stage)`: posts the stage write (whose failure is only
logged inside the `try`/`catch`), then — outside the `try` — triggers
`gradeExam` whenever the requested stage is 7, regardless of whether the
write succeeded. -/
def postExamStage (stage : Int) (writeOutcome : FetchOutcome) :
    Bool × Bool :=
  (match writeOutcome with
    | .netError => false
    | .response ok _ => ok,
   stage == 7)

/-- C7: the pieces the claim gets right — the extract call is issued
only for `answer_script` and a rejected fetch never advances the stage —
together with the failing run: an extract response with a *non-success
HTTP status* but a JSON body still leads to the stage-advance write to 7
and the grading request (and `postExamStage` triggers grading even when
its own write fails). -/
theorem handleSubmit_stage_advance_behaviour :
    (∀ out, (handleSubmitFinalize "question_paper" out).extractCalled = false) ∧
    (∀ out, (handleSubmitFinalize "marking_scheme" out).extractCalled = false) ∧
    (∀ out, (handleSubmitFinalize "solution_script" out).extractCalled = false) ∧
    (∀ dt, (handleSubmitFinalize dt FetchOutcome.netError).stageWriteRequested
      = none) ∧
    (handleSubmitFinalize "answer_script"
        (FetchOutcome.response false true)).stageWriteRequested = some 7 ∧
    (handleSubmitFinalize "answer_script"
        (FetchOutcome.response false true)).gradeRequested = true ∧
    (postExamStage 7 (FetchOutcome.response false true)).2 = true := by
  refine ⟨?_, ?_, ?_, ?_, rfl, rfl, rfl⟩
  · intro out
    cases out with
    | netError => rfl
    | response ok jsonOk => cases jsonOk <;> rfl
  · intro out
    cases out with
    | netError => rfl
    | response ok jsonOk => cases jsonOk <;> rfl
  · intro out
    cases out with
    | netError => rfl
    | response ok jsonOk => cases jsonOk <;> rfl
  · intro dt
    rw [handleSubmitFinalize]
    by_cases h : (dt == "answer_script") = true
    · rw [if_pos h]
    · rw [if_neg h]

/-! ## Region capture: `endSelection` (box mode)
(crop-edit.js `endSelection` lines 367-393, `addRegionSelection` lines
442-536) -/

/-- A rectangle in display coordinates (floats: modelled over ℚ). -/
structure SelRect where
  minX : ℚ
  minY : ℚ
  width : ℚ
  height : ℚ
deriving DecidableEq, Repr

/-- One stored region: its id, the display rectangle, the crop rectangle
on the render-resolution canvas, and the two selectors' current values —
the content-kind select (whose first option, hence default, is `"Text"`)
and the part select (whose default option is `""`, the main bucket). -/
structure RegionEntry where
  regionId : Nat
  displayRect : SelRect
  cropRect : SelRect
  kind : String
  partLabel : String
deriving DecidableEq, Repr

/-- The capture controller's mutable state touched by a box gesture:
the global `regionCounter` and the `regionSelections` list. -/
structure CaptureState where
  regionCounter : Nat
  regions : List RegionEntry
deriving DecidableEq, Repr

/-- The box branch of `endSelection`: with no candidate rectangle, or a
candidate whose width or height is under 5 display pixels, it returns
with no mutation; otherwise it scales the rectangle by the overlay's
render ratio, crops, and `addRegionSelection` stores a new region whose
id is the current counter (post-incrementing it), with content-kind
defaulting to Text and no part label. -/
def endSelectionBox (st : CaptureState) (currentBoxRect : Option SelRect)
    (ratio : ℚ) : CaptureState :=
  match currentBoxRect with
  | none => st
  | some b =>
      if b.width < 5 ∨ b.height < 5 then st
      else
        { regionCounter := st.regionCounter + 1,
          regions := st.regions ++
            [{ regionId := st.regionCounter,
               displayRect := b,
               cropRect := ⟨b.minX * ratio, b.minY * ratio,
                 b.width * ratio, b.height * ratio⟩,
               kind := "Text", partLabel := "" }] }

/-- C9 (counterexample): a 2×100 candidate rectangle is *not* below the
5-pixel threshold in both dimensions, yet `endSelection` rejects it and
stores nothing — the code requires both dimensions to reach the
threshold (`width < 5 || height < 5` rejects), while the claim only
rejects rectangles under the threshold in both dimensions. -/
theorem endSelection_rejects_thin_candidate :
    ¬(((2 : ℚ) < 5) ∧ ((100 : ℚ) < 5)) ∧
    endSelectionBox ⟨1, []⟩ (some ⟨0, 0, 2, 100⟩) 2 = ⟨1, []⟩ := by
  constructor
  · rintro ⟨_, h⟩
    norm_num at h
  · rw [endSelectionBox]
    rw [if_pos]
    left
    norm_num

/-- C9 (amended): on end-selection of a box gesture, a candidate under
the 5-pixel threshold in *either* dimension (or an absent candidate) is
rejected with no state mutation; otherwise crop is invoked on the
rectangle scaled by the render ratio and the new Region is appended
with the current counter as id (so ids increase monotonically), default
content-kind Text, and no part label (main bucket). -/
theorem endSelectionBox_correct (st : CaptureState) (b : SelRect) (ratio : ℚ)
    (hids : ∀ rg ∈ st.regions, rg.regionId < st.regionCounter) :
    (endSelectionBox st none ratio = st) ∧
    ((b.width < 5 ∨ b.height < 5) → endSelectionBox st (some b) ratio = st) ∧
    (¬(b.width < 5 ∨ b.height < 5) →
      (endSelectionBox st (some b) ratio).regions =
        st.regions ++
          [{ regionId := st.regionCounter,
             displayRect := b,
             cropRect := ⟨b.minX * ratio, b.minY * ratio,
               b.width * ratio, b.height * ratio⟩,
             kind := "Text", partLabel := "" }] ∧
      (endSelectionBox st (some b) ratio).regionCounter = st.regionCounter + 1 ∧
      (∀ rg ∈ st.regions, rg.regionId < st.regionCounter) ∧
      (∀ rg ∈ (endSelectionBox st (some b) ratio).regions,
        rg.regionId < (endSelectionBox st (some b) ratio).regionCounter)) := by
  refine ⟨rfl, ?_, ?_⟩
  · intro h
    rw [endSelectionBox, if_pos h]
  · intro h
    rw [endSelectionBox, if_neg h]
    refine ⟨rfl, rfl, hids, ?_⟩
    intro rg hrg
    show rg.regionId < st.regionCounter + 1
    rcases List.mem_append.mp hrg with h' | h'
    · have := hids rg h'
      omega
    · simp only [List.mem_singleton] at h'
      subst h'
      show st.regionCounter < st.regionCounter + 1
      omega

/-- Closed instance of `endSelectionBox_correct` on an empty state and a
10×10 candidate at render ratio 2. -/
theorem endSelectionBox_correct_witness :
    (endSelectionBox ⟨1, []⟩ none 2 = ⟨1, []⟩) ∧
    (((10 : ℚ) < 5 ∨ (10 : ℚ) < 5) → endSelectionBox ⟨1, []⟩ (some ⟨0, 0, 10, 10⟩) 2 = ⟨1, []⟩) ∧
    (¬((10 : ℚ) < 5 ∨ (10 : ℚ) < 5) →
      (endSelectionBox ⟨1, []⟩ (some ⟨0, 0, 10, 10⟩) 2).regions =
        [] ++ [{ regionId := 1, displayRect := ⟨0, 0, 10, 10⟩,
                 cropRect := ⟨0 * 2, 0 * 2, 10 * 2, 10 * 2⟩,
                 kind := "Text", partLabel := "" }] ∧
      (endSelectionBox ⟨1, []⟩ (some ⟨0, 0, 10, 10⟩) 2).regionCounter = 1 + 1 ∧
      (∀ rg ∈ ([] : List RegionEntry), rg.regionId < 1) ∧
      (∀ rg ∈ (endSelectionBox ⟨1, []⟩ (some ⟨0, 0, 10, 10⟩) 2).regions,
        rg.regionId < (endSelectionBox ⟨1, []⟩ (some ⟨0, 0, 10, 10⟩) 2).regionCounter)) :=
  endSelectionBox_correct ⟨1, []⟩ ⟨0, 0, 10, 10⟩ 2 (by simp)

/-! ## Region deletion and renumbering
(crop-edit.js `deleteRegion` lines 570-582, `updateRegionNumbers` lines
557-568) -/

/-- The state `deleteRegion`/`updateRegionNumbers` operate on: the
`regionSelections` list (each entry with its page overlay marker),
identified here by region ids, and the sidebar thumbnail wrappers in
display order, identified by their `data-region-id`. -/
structure EditorState where
  regionSelections : List Nat
  sidebar : List Nat
deriving DecidableEq, Repr

/-- Function `updateRegionNumbers()`: walk the sidebar wrappers in display order;
for each wrapper whose region id is found among `regionSelections`,
display the 1-based wrapper index as that region's number.  The result
is the list of `(regionId, displayedNumber)` assignments. -/
def updateRegionNumbers (st : EditorState) : List (Nat × Nat) :=
  st.sidebar.enum.filterMap (fun p =>
    if p.2 ∈ st.regionSelections then some (p.2, p.1 + 1) else none)

/-- Function `deleteRegion(regionId)`: if no stored region has this id, return
before touching anything; otherwise remove that region's overlay
marker and list entry, remove its sidebar wrapper, and renumber. -/
def deleteRegion (st : EditorState) (regionId : Nat) : EditorState :=
  if regionId ∈ st.regionSelections then
    { regionSelections := st.regionSelections.erase regionId,
      sidebar := st.sidebar.erase regionId }
  else st

theorem filterMap_enumFrom_all_found (rs : List Nat) :
    ∀ (sb : List Nat) (n : Nat), (∀ x ∈ sb, x ∈ rs) →
    ((sb.enumFrom n).filterMap (fun p =>
        if p.2 ∈ rs then some (p.2, p.1 + 1) else none)) =
      (sb.enumFrom n).map (fun p => (p.2, p.1 + 1)) := by
  intro sb
  induction sb with
  | nil => intro n _; rfl
  | cons x sb ih =>
    intro n hall
    rw [List.enumFrom_cons, List.filterMap_cons, List.map_cons]
    rw [if_pos (hall x (List.mem_cons_self _ _))]
    rw [ih (n + 1) (fun y hy => hall y (List.mem_cons_of_mem _ hy))]

/-- C10: calling `deleteRegion` with an id that no stored region has is
a total no-op (region list, overlay markers, sidebar, and the displayed
numbering all unchanged); for a present id exactly that one region is
removed, and the remaining regions are renumbered densely `1..n` in
current display order. -/
theorem deleteRegion_correct (st : EditorState) (rid : Nat)
    (hsync : st.sidebar.Perm st.regionSelections)
    (hnodup : st.regionSelections.Nodup) :
    (rid ∉ st.regionSelections → deleteRegion st rid = st) ∧
    (rid ∈ st.regionSelections →
      (deleteRegion st rid).regionSelections.length + 1 =
        st.regionSelections.length ∧
      (∀ x, x ≠ rid →
        (x ∈ (deleteRegion st rid).regionSelections ↔ x ∈ st.regionSelections)) ∧
      rid ∉ (deleteRegion st rid).regionSelections ∧
      (updateRegionNumbers (deleteRegion st rid)).map (fun p => p.1) =
        (deleteRegion st rid).sidebar ∧
      (updateRegionNumbers (deleteRegion st rid)).map (fun p => p.2) =
        List.range' 1 (deleteRegion st rid).sidebar.length) := by
  constructor
  · intro hno
    rw [deleteRegion, if_neg hno]
  · intro hyes
    have hstate : deleteRegion st rid =
        { regionSelections := st.regionSelections.erase rid,
          sidebar := st.sidebar.erase rid } := by
      rw [deleteRegion, if_pos hyes]
    have hsync' : (st.sidebar.erase rid).Perm (st.regionSelections.erase rid) :=
      hsync.erase rid
    have hall : ∀ x ∈ st.sidebar.erase rid, x ∈ st.regionSelections.erase rid :=
      fun x hx => hsync'.mem_iff.mp hx
    have hnumbers : updateRegionNumbers (deleteRegion st rid) =
        ((st.sidebar.erase rid).enumFrom 0).map (fun p => (p.2, p.1 + 1)) := by
      rw [hstate, updateRegionNumbers]
      exact filterMap_enumFrom_all_found _ _ 0 hall
    refine ⟨?_, ?_, ?_, ?_, ?_⟩
    · rw [hstate]
      show (st.regionSelections.erase rid).length + 1 = st.regionSelections.length
      rw [List.length_erase_of_mem hyes]
      have : 0 < st.regionSelections.length := List.length_pos.mpr
        (fun h => by rw [h] at hyes; cases hyes)
      omega
    · intro x hx
      rw [hstate]
      show x ∈ st.regionSelections.erase rid ↔ x ∈ st.regionSelections
      rw [hnodup.mem_erase_iff]
      exact ⟨fun h => h.2, fun h => ⟨hx, h⟩⟩
    · rw [hstate]
      exact hnodup.not_mem_erase
    · rw [hnumbers, hstate, List.map_map]
      have hco : ((fun (q : Nat × Nat) => q.1) ∘
          (fun (p : Nat × Nat) => (p.2, p.1 + 1))) = Prod.snd := by
        funext p
        rfl
      rw [hco]
      exact List.enumFrom_map_snd 0 _
    · rw [hnumbers, hstate, List.map_map]
      have hco : ((fun (q : Nat × Nat) => q.2) ∘
          (fun (p : Nat × Nat) => (p.2, p.1 + 1))) =
          ((fun i => 1 + i) ∘ Prod.fst) := by
        funext p
        simp [Nat.add_comm]
      rw [hco, ← List.map_map, List.enumFrom_map_fst, List.map_add_range']

/-- Closed instance of `deleteRegion_correct`: deleting the absent id 5
from a two-region state changes nothing, and deleting the present id 2
renumbers the remaining display list densely from 1. -/
theorem deleteRegion_correct_witness :
    deleteRegion ⟨[1, 2], [2, 1]⟩ 5 = ⟨[1, 2], [2, 1]⟩ ∧
    (updateRegionNumbers (deleteRegion ⟨[1, 2], [2, 1]⟩ 2)).map (fun p => p.2) =
      List.range' 1 (deleteRegion ⟨[1, 2], [2, 1]⟩ 2).sidebar.length :=
  ⟨(deleteRegion_correct ⟨[1, 2], [2, 1]⟩ 5 (by decide) (by decide)).1 (by decide),
   ((deleteRegion_correct ⟨[1, 2], [2, 1]⟩ 2 (by decide) (by decide)).2
     (by decide)).2.2.2.2⟩

/-! ## Response assembly
(crop-edit.js `createTextImage` lines 773-786, `saveCurrentSelections`
lines 606-710, `handleSubmit` lines 824-885)

`measureText` abstracts the canvas font-metric width of a caption text,
an environment-dependent quantity (`ctx.measureText(text).width`). -/

/-- One stored captured region as `saveCurrentSelections` reads it: the
content-kind select's value (`"Text"`/`"Table"`/`"Diagram"`), the part
select's value (`""` ⇒ main bucket), and the cropped image. -/
structure CapturedRegion where
  regionId : Nat
  kind : String
  partLabel : String
  image : Image
deriving DecidableEq, Repr

/-- The bucketing pass of `saveCurrentSelections`: the images of the
regions assigned to the given part (in display order) with the given
content-kind. -/
def bucketOf (regions : List CapturedRegion) (part kind : String) : List Image :=
  (regions.filter (fun rg => rg.partLabel == part && rg.kind == kind)).map
    (fun rg => rg.image)

/-- Function `createTextImage(text)`: a caption raster, background filled and the
text drawn — width sized to the text metrics plus padding, height 40. -/
def createTextImage (measureText : String → Nat) (text : String) : Image :=
  { naturalWidth := measureText text + 20, naturalHeight := 40,
    content := [Atom.caption text] }

/-- Function `processImageWithLabel(src, labelText)`: caption stitched atop the
single image. -/
def processImageWithLabel (measureText : String → Nat) (img : Image)
    (labelText : String) : Image :=
  concatenateImages [createTextImage measureText labelText, img]

structure PartResponse where
  part_label : String
  text_images : List Image
  table_images : List Image
  diagram_images : List Image
deriving DecidableEq, Repr

structure QuestionResponse where
  question_id : Nat
  question_number : Nat
  text_images : List Image
  table_images : List Image
  diagram_images : List Image
  parts : List PartResponse
deriving DecidableEq, Repr

/-- Function `saveCurrentSelections()`: partition the stored regions into the
main bucket and one bucket per part, each keyed by content-kind; a
non-empty Text bucket becomes exactly one composite (caption followed by
all its images, stitched); each Table/Diagram image becomes its own
captioned composite; empty buckets yield empty lists. -/
def saveCurrentSelections (measureText : String → Nat)
    (questionId questionNumber : Nat) (partsList : List String)
    (regions : List CapturedRegion) : QuestionResponse :=
  let qNumText := "Question Number " ++ toString questionNumber
  { question_id := questionId,
    question_number := questionNumber,
    text_images :=
      if 0 < (bucketOf regions "" "Text").length then
        [concatenateImages
          (createTextImage measureText qNumText :: bucketOf regions "" "Text")]
      else [],
    table_images := (bucketOf regions "" "Table").map
      (fun img => processImageWithLabel measureText img qNumText),
    diagram_images := (bucketOf regions "" "Diagram").map
      (fun img => processImageWithLabel measureText img qNumText),
    parts := partsList.map (fun partLabel =>
      { part_label := partLabel,
        text_images :=
          if 0 < (bucketOf regions partLabel "Text").length then
            [concatenateImages
              (createTextImage measureText ("Part " ++ partLabel) ::
                bucketOf regions partLabel "Text")]
          else [],
        table_images := (bucketOf regions partLabel "Table").map
          (fun img => processImageWithLabel measureText img ("Part " ++ partLabel)),
        diagram_images := (bucketOf regions partLabel "Diagram").map
          (fun img =>
            processImageWithLabel measureText img ("Part " ++ partLabel)) }) }

/-- The finalized per-question payload submitted by `handleSubmit`. -/
structure SubmittedPayload where
  question_id : Nat
  question_number : Nat
  original_index : Nat
  text_images : List Image
  table_images : List Image
  diagram_images : List Image
deriving DecidableEq, Repr

/-- The per-response processing of `handleSubmit` (lines 824-885): if
question-level Text composites exist they are stitched together with
every part-level Text composite into one merged image; if only
part-level ones exist they are merged first and a question caption is
prepended; Table and Diagram composites of all parts are appended to the
question's top-level lists as they are, without re-stitching. -/
def handleSubmitProcess (measureText : String → Nat)
    (response : QuestionResponse) (idx : Nat) : SubmittedPayload :=
  let topLevel := response.text_images
  let partsLevel := (response.parts.map (fun part => part.text_images)).join
  let finalTextImages :=
    if 0 < topLevel.length ∨ 0 < partsLevel.length then
      if 0 < topLevel.length then
        [concatenateImages (topLevel ++ partsLevel)]
      else
        [concatenateImages
          [createTextImage measureText
            ("Question Number " ++ toString response.question_number),
           concatenateImages partsLevel]]
    else []
  { question_id := response.question_id,
    question_number := response.question_number,
    original_index := idx,
    text_images := finalTextImages,
    table_images := response.table_images ++
      (response.parts.map (fun part => part.table_images)).join,
    diagram_images := response.diagram_images ++
      (response.parts.map (fun part => part.diagram_images)).join }

/-- C8: with exactly one Text region in the main bucket and exactly one
Text region for part `"1.1"` of question 1, finishing the question
yields a `QuestionResponse` with exactly one question-level Text entry
and exactly one Text entry in `parts[0]`; final submission then yields a
single top-level `text_images` entry whose content stacks both source
images under the question caption (with the part caption in between, as
the part composite already carried it); and part-level Table/Diagram
composites are appended unchanged to the question's top-level lists. -/
theorem saveSelections_handleSubmit_end_to_end
    (measureText : String → Nat) (img1 img2 : Image) :
    (saveCurrentSelections measureText 10 1 ["1.1"]
        [⟨1, "Text", "", img1⟩, ⟨2, "Text", "1.1", img2⟩]).text_images.length
      = 1 ∧
    ((saveCurrentSelections measureText 10 1 ["1.1"]
        [⟨1, "Text", "", img1⟩, ⟨2, "Text", "1.1", img2⟩]).parts.map
      (fun part => part.text_images.length)) = [1] ∧
    ((handleSubmitProcess measureText
        (saveCurrentSelections measureText 10 1 ["1.1"]
          [⟨1, "Text", "", img1⟩, ⟨2, "Text", "1.1", img2⟩]) 0).text_images.map
      (fun img => img.content)) =
      [Atom.caption "Question Number 1" ::
        (img1.content ++ (Atom.caption "Part 1.1" :: img2.content))] ∧
    (∀ (r : QuestionResponse) (idx : Nat),
      (handleSubmitProcess measureText r idx).table_images =
        r.table_images ++ (r.parts.map (fun part => part.table_images)).join) ∧
    (∀ (r : QuestionResponse) (idx : Nat),
      (handleSubmitProcess measureText r idx).diagram_images =
        r.diagram_images ++ (r.parts.map (fun part => part.diagram_images)).join) := by
  refine ⟨rfl, rfl, ?_, fun r idx => rfl, fun r idx => rfl⟩
  show [(([] ++ [Atom.caption ("Question Number " ++ toString (1 : Nat))]) ++
      img1.content) ++
        (([] ++ [Atom.caption ("Part " ++ "1.1")]) ++ img2.content)] = _
  simp
  rfl

end CogniGrade
